import Mathlib

/-!
Verification of the `jupyterlab_templates` server extension
(`jupyterlab_templates/extension.py`).

The development shallowly embeds the two template enumerators
(`TemplatesLoader`, backed by `os.walk`/`open`, and
`ContentsManagerTemplatesLoader`, backed by an abstract contents manager)
and the two request handlers.  The ambient filesystem (the data returned
by `os.walk`, `os.path.realpath`-based parent resolution, and `open`) is
modelled by an explicit `FS` environment; the abstract contents manager is
modelled by a `ContentsManager` environment.  Python dictionaries are
modelled by insertion-ordered association lists with the usual
overwrite-on-existing-key semantics, and Python string primitives
(`fnmatch.fnmatch`, `str.replace`, `str.strip`, `os.path.join`,
`os.path.split`, substring membership) are given executable models below.
-/

/-! ## String primitives used by the source -/

/-- Does `pat` occur as a contiguous run inside the second list?  An empty
pattern occurs everywhere. -/
def listContainsSub (pat : List Char) : List Char → Bool
  | [] => pat.isEmpty
  | c :: cs => pat.isPrefixOf (c :: cs) || listContainsSub pat cs

/-- Model of Python `pat in s` (substring containment), as used by
`".ipynb_checkpoints" not in dirname` in the source. -/
def strContainsSub (s pat : String) : Bool :=
  listContainsSub pat.toList s.toList

/-- One step bound for the glob matcher: every recursive call either
shortens the pattern or shortens the subject, so `|s| + |pat| + 1` fuel
always suffices.  Fuel keeps the recursion structural, hence kernel
reducible. -/
def fnmatchFuel : Nat → List Char → List Char → Bool
  | 0, _, _ => false
  | Nat.succ fuel, s, pat =>
    match pat with
    | [] => s.isEmpty
    | p :: ps =>
      if p = '*' then
        fnmatchFuel fuel s ps ||
          (match s with
           | [] => false
           | _ :: cs => fnmatchFuel fuel cs (p :: ps))
      else
        match s with
        | [] => false
        | c :: cs => (p = '?' || p = c) && fnmatchFuel fuel cs ps

/-- Model of Python `fnmatch.fnmatch(name, pattern)` on a posix system:
`*` matches any run of characters, `?` matches one character, anything
else matches literally. -/
def fnmatch (name pattern : String) : Bool :=
  fnmatchFuel (name.length + pattern.length + 1) name.toList pattern.toList

/-- Is the first character of `s` the posix path separator? -/
def strHeadIsSlash (s : String) : Bool :=
  match s.data with
  | c :: _ => c = '/'
  | [] => false

/-- Is the last character of `s` the posix path separator? -/
def strLastIsSlash (s : String) : Bool :=
  match s.data.getLast? with
  | some c => c = '/'
  | none => false

/-- Model of Python `os.path.join(a, b)` on posix: an absolute second
component wins, otherwise the components are glued with `/` unless `a`
is empty or already ends in `/`. -/
def pjoin (a b : String) : String :=
  if strHeadIsSlash b then b
  else if a = "" then a ++ b
  else if strLastIsSlash a then a ++ b
  else a ++ "/" ++ b

/-- Model of Python `s.strip(os.path.sep)` on posix: drop leading and
trailing `/` characters. -/
def stripSlashes (s : String) : String :=
  String.mk (((s.toList.dropWhile (fun c => c = '/')).reverse.dropWhile
    (fun c => c = '/')).reverse)

/-- Fueled core of `strReplaceEmpty`: remove every (left-to-right,
non-overlapping) occurrence of the nonempty pattern `pat`.  Each step
consumes at least one character of the subject, so `|s|` fuel suffices. -/
def removeAllFuel : Nat → List Char → List Char → List Char
  | 0, s, _ => s
  | Nat.succ fuel, s, pat =>
    match s with
    | [] => []
    | c :: cs =>
      if pat.isPrefixOf (c :: cs) then
        removeAllFuel fuel (List.drop pat.length (c :: cs)) pat
      else
        c :: removeAllFuel fuel cs pat

/-- Model of Python `s.replace(pat, "")`: delete every occurrence of
`pat` from `s` (scanning left to right).  With an empty pattern Python
returns `s` unchanged, matching the guard here. -/
def strReplaceEmpty (s pat : String) : String :=
  if pat.isEmpty then s
  else String.mk (removeAllFuel s.length s.toList pat.toList)

/-- Model of Python `os.path.split(p)` on posix: split at the last `/`;
the head keeps no trailing slashes unless it consists solely of
slashes. -/
def osPathSplit (p : String) : String × String :=
  let l := p.toList
  let tail := (l.reverse.takeWhile (fun c => c ≠ '/')).reverse
  let headRaw := l.take (l.length - tail.length)
  let head :=
    if headRaw.all (fun c => c = '/') then headRaw
    else (headRaw.reverse.dropWhile (fun c => c = '/')).reverse
  (String.mk head, String.mk tail)

/-- Split a character list at every `/`. -/
def splitOnSlash : List Char → List (List Char)
  | [] => [[]]
  | c :: cs =>
    if c = '/' then [] :: splitOnSlash cs
    else
      match splitOnSlash cs with
      | seg :: rest => (c :: seg) :: rest
      | [] => [[c]]

/-- Path components of a posix path string (used only to state claims
about "segments" of a path). -/
def pathSegments (s : String) : List String :=
  ((splitOnSlash s.toList).map String.mk).filter (fun seg => seg ≠ "")

/-! ## Data model -/

/-- One entry of the grouped catalog: Python `{"name": data["name"]}`. -/
structure TemplateSummary where
  name : String
deriving DecidableEq, Repr

/-- The full template record built by the loaders: Python
`{"path": ..., "name": ..., "dirname": ..., "filename": ..., "content": ...}`. -/
structure TemplateRecord where
  path : String
  name : String
  dirname : String
  filename : String
  content : String
deriving DecidableEq, Repr

/-- The grouped catalog (Python dict `templates`, insertion ordered). -/
abbrev Catalog := List (String × List TemplateSummary)

/-- The lookup index (Python dict `template_by_path`, insertion ordered). -/
abbrev PathIndex := List (String × TemplateRecord)

/-- Append `s` to the list stored under key `k`, creating the key with a
singleton list when absent.  This is exactly lines 85-89 of the source:
`if key not in templates: templates[key] = []` followed by
`templates[key].append(...)`. -/
def addGroup : Catalog → String → TemplateSummary → Catalog
  | [], k, s => [(k, [s])]
  | (k', vs) :: rest, k, s =>
    if k' = k then (k', vs ++ [s]) :: rest
    else (k', vs) :: addGroup rest k s

/-- Python dict assignment `d[k] = v`: overwrite in place when the key is
present, append otherwise. -/
def dictInsert : PathIndex → String → TemplateRecord → PathIndex
  | [], k, v => [(k, v)]
  | (k', v') :: rest, k, v =>
    if k' = k then (k', v) :: rest
    else (k', v') :: dictInsert rest k v

/-- Python dict lookup `d[k]`, returning `none` where Python raises
`KeyError`. -/
def alFind : PathIndex → String → Option TemplateRecord
  | [], _ => none
  | (k, v) :: rest, n => if k = n then some v else alFind rest n

/-- Does the catalog contain a summary whose `name` is `n`? -/
def catalogHasName (t : Catalog) (n : String) : Bool :=
  t.any (fun g => g.2.any (fun s => s.name = n))

/-! ## Local enumerator (`TemplatesLoader`) -/

/-- `TEMPLATES_IGNORE_FILE` from the source. -/
def TEMPLATES_IGNORE_FILE : String := ".jupyterlab_templates_ignore"

/-- Configuration state of the local loader, set in `__init__` and never
assigned afterwards. -/
structure TemplatesLoader where
  template_dirs : List String
  template_label : String
  allowed_extensions : List String
deriving Repr

/-- `TemplatesLoader.__init__`: `none` models passing Python `None` (or
omitting the keyword argument); Python `x or default` treats the empty
string and the empty list as falsy. -/
def TemplatesLoader.init (template_dirs : List String)
    (allowed_extensions : Option (List String))
    (template_label : Option String) : TemplatesLoader :=
  ⟨template_dirs,
   (fun lbl => if lbl = "" then "Template" else lbl) (template_label.getD ""),
   (fun ae => if ae = [] then ["*.ipynb"] else ae) (allowed_extensions.getD [])⟩

/-- One directory yielded by `os.walk`: the directory path and the list of
filenames directly inside it (the middle `dirnames` component is unused by
the source and omitted). -/
abbrev WalkEntry := String × List String

/-- The ambient filesystem as seen by the local loader:
`walk p` is the sequence of `(dirname, filenames)` pairs produced by
`os.walk(p, followlinks=True)`; `absParent p` is the value of
`os.path.abspath(os.path.join(os.path.realpath(p), os.pardir))` (it
depends on symlink resolution, so it is part of the environment); and
`read p` is the UTF-8 decoded result of `open(p).read()`, `none` when the
read raises `FileNotFoundError` or `PermissionError`. -/
structure FS where
  walk : String → List WalkEntry
  absParent : String → String
  read : String → Option String

/-- The first loop of `TemplatesLoader._old` (lines 47-65): build the
`files` list of `(joined path, dirname.replace(path, ""), filename)`
triples, skipping the top level directory, directories that contain the
sentinel ignore file, filenames matching no allowed glob, and files whose
directory contains the string `".ipynb_checkpoints"`. -/
def TemplatesLoader.walkFiles (l : TemplatesLoader) (path : String)
    (entries : List WalkEntry) : List (String × String × String) :=
  entries.foldl (fun files e =>
    if e.1 = path then files
    else if e.2.contains TEMPLATES_IGNORE_FILE then files
    else
      files ++
        ((e.2.filter (fun x => l.allowed_extensions.any (fun y => fnmatch x y))).filterMap
          (fun filename =>
            if strContainsSub e.1 ".ipynb_checkpoints" then none
            else some (pjoin e.1 filename, strReplaceEmpty e.1 path, filename)))) []

/-- The body of the second loop of `TemplatesLoader._old` (lines 67-92):
read the file's content (silently skipping unreadable files), build the
record, register its summary under the slash-stripped relative directory,
and index the full record under its `name`. -/
def recordStep (fs : FS) (abspath : String) (acc : Catalog × PathIndex)
    (tr : String × String × String) : Catalog × PathIndex :=
  match fs.read (pjoin abspath tr.1) with
  | none => acc
  | some content =>
    (addGroup acc.1 (stripSlashes tr.2.1) ⟨pjoin tr.2.1 tr.2.2⟩,
     dictInsert acc.2 (pjoin tr.2.1 tr.2.2)
       ⟨tr.1, pjoin tr.2.1 tr.2.2, tr.2.1, tr.2.2, content⟩)

/-- `TemplatesLoader._old`: walk every configured root and accumulate the
catalog and the `template_by_path` index.  The `contents_manager`
parameter of the Python method is unused by its body and therefore
omitted; the ambient filesystem is passed as `fs`. -/
def TemplatesLoader._old (l : TemplatesLoader) (fs : FS) : Catalog × PathIndex :=
  l.template_dirs.foldl (fun acc path =>
    (l.walkFiles path (fs.walk path)).foldl (recordStep fs (fs.absParent path)) acc)
    ([], [])

/-- `TemplatesLoader.get_templates`: first component of `_old`. -/
def TemplatesLoader.get_templates (l : TemplatesLoader) (fs : FS) : Catalog :=
  (l._old fs).1

/-- `TemplatesLoader.get_template`: dict lookup in the second component of
`_old`; `none` models the `KeyError` Python raises for an unknown key. -/
def TemplatesLoader.get_template (l : TemplatesLoader) (fs : FS)
    (path : String) : Option TemplateRecord :=
  alFind (l._old fs).2 path

/-! ## Request handler for `templates/get` -/

/-- The client-observable response: HTTP status and the record serialized
into the body (`none` = empty body). -/
structure HttpResponse where
  status : Nat
  body : Option TemplateRecord
deriving DecidableEq, Repr

/-- Tornado handler state during one `get` call: the pending status code
and the response already flushed by `finish` (if any). -/
structure HandlerState where
  statusCode : Nat
  sent : Option HttpResponse
deriving DecidableEq, Repr

/-- `RequestHandler.finish(body)`: flush the response with the current
status code.  A second call cannot overwrite what was already sent. -/
def hFinish (st : HandlerState) (body : Option TemplateRecord) : HandlerState :=
  match st.sent with
  | some _ => st
  | none => ⟨st.statusCode, some ⟨st.statusCode, body⟩⟩

/-- `RequestHandler.set_status(code)`: record the status code; this has no
effect on a response that was already flushed. -/
def hSetStatus (st : HandlerState) (code : Nat) : HandlerState :=
  ⟨code, st.sent⟩

/-- End of the handler method: Tornado auto-finishes with an empty body
when `finish` was never called. -/
def hFinalize (st : HandlerState) : HttpResponse :=
  match st.sent with
  | some r => r
  | none => ⟨st.statusCode, none⟩

/-- `TemplatesHandler.get` (lines 144-149).  `lookup` is
`self.loader.get_template(·, self.contents_manager)` (with `none` for a
raised `KeyError`); `query` gives the raw query parameters, so
`(query "template").getD ""` is `self.get_argument("template", "")`.
A `KeyError` escaping the handler is returned as `Except.error` (Tornado
turns it into a generic 500 response). -/
def TemplatesHandler.get (lookup : String → Option TemplateRecord)
    (query : String → Option String) : Except String HttpResponse :=
  if (query "template").getD "" ≠ "" then
    match lookup ((query "template").getD "") with
    | none => Except.error "KeyError"
    | some rec =>
      Except.ok (hFinalize (hSetStatus (hFinish ⟨200, none⟩ (some rec)) 404))
  else
    Except.ok (hFinalize (hSetStatus ⟨200, none⟩ 404))

/-! ## Request handler for `templates/names` -/

/-- The serialized body of `TemplateNamesHandler.get`: the catalog plus
the configured label. -/
structure NamesResponse where
  templates : Catalog
  template_label : String
deriving DecidableEq, Repr

/-! ## Store-backed enumerator (`ContentsManagerTemplatesLoader`) -/

/-- Item types reported by the contents manager. -/
inductive CMType where
  | directory
  | notebook
  | file
deriving DecidableEq, Repr

/-- One child returned by `contents_manager.get(path, content=True,
type="directory")["content"]`: its path and its declared type. -/
structure CMEntry where
  path : String
  type : CMType
deriving DecidableEq, Repr

/-- The abstract contents manager: `listDir p` is the `"content"` list of
the directory fetch, and `notebookJson p` is the JSON string
`json.dumps(contents_manager.get(p, content=True, type="notebook")["content"],
default=json_default)` produced for a single-notebook fetch. -/
structure ContentsManager where
  listDir : String → List CMEntry
  notebookJson : String → String

/-- Configuration state of the store-backed loader (a mapping
group name → root path, modelled as an insertion-ordered association
list). -/
structure ContentsManagerTemplatesLoader where
  template_dirs : List (String × String)
  template_label : String
  allowed_extensions : List String
deriving Repr

/-- `ContentsManagerTemplatesLoader.__init__`; the `include_default`
parameter is accepted and ignored, exactly as in the source. -/
def ContentsManagerTemplatesLoader.init (template_dirs : List (String × String))
    (template_label : Option String) (allowed_extensions : Option (List String))
    (include_default : Bool) : ContentsManagerTemplatesLoader :=
  ⟨template_dirs,
   (fun lbl => if lbl = "" then "Template" else lbl) (template_label.getD "Template"),
   (fun ae => if ae = [] then ["*.ipynb"] else ae) (allowed_extensions.getD [])⟩

/-- Python `set.add` on the pending set: append unless already present. -/
def setAdd (s : List String) (x : String) : List String :=
  if s.contains x then s else s ++ [x]

/-- The body of the `for x in dir_result["content"]` loop of
`get_templates` (lines 120-124): directories join the pending set,
notebooks join the group's summaries, anything else is dropped. -/
def scanStep (acc : List String × List TemplateSummary) (x : CMEntry) :
    List String × List TemplateSummary :=
  match x.type with
  | CMType.directory => (setAdd acc.1 x.path, acc.2)
  | CMType.notebook => (acc.1, acc.2 ++ [⟨x.path⟩])
  | CMType.file => acc

/-- The `while len(dirs_to_scan) > 0` loop of `get_templates`
(lines 116-124).  `sel` chooses which pending element Python's
`set.pop()` removes (the index used is `sel pending % pending.length`),
making the unspecified pop order explicit; `fuel` bounds the number of
iterations, since the loop need not terminate on a cyclic store.  The
first component of the result records the directory paths passed to
`contents_manager.get`, in order; the second is the group's summary
list. -/
def scanLoop (store : String → List CMEntry) (sel : List String → Nat) :
    Nat → List String → List String → List TemplateSummary →
    List String × List TemplateSummary
  | 0, _, pops, acc => (pops, acc)
  | Nat.succ fuel, pending, pops, acc =>
    match pending with
    | [] => (pops, acc)
    | _ :: _ =>
      let i := sel pending % pending.length
      let path := pending.getD i ""
      let rest := pending.eraseIdx i
      let st := (store path).foldl scanStep (rest, acc)
      scanLoop store sel fuel st.1 (pops ++ [path]) st.2

/-- `ContentsManagerTemplatesLoader.get_templates` (lines 108-126): one
independent traversal per configured group, seeded with the group's root
path.  The dead local `template_by_path` of the source is not modelled
(the method returns only `templates`). -/
def ContentsManagerTemplatesLoader.get_templates
    (l : ContentsManagerTemplatesLoader) (cm : ContentsManager)
    (sel : List String → Nat) (fuel : Nat) : Catalog :=
  l.template_dirs.map (fun g => (g.1, (scanLoop cm.listDir sel fuel [g.2] [] []).2))

/-- `ContentsManagerTemplatesLoader.get_template` (lines 128-137): a
direct single-item fetch; `os.path.split` supplies `name`, `dirname` and
`filename`. -/
def ContentsManagerTemplatesLoader.get_template
    (l : ContentsManagerTemplatesLoader) (path : String) (cm : ContentsManager) :
    TemplateRecord :=
  ⟨path, (osPathSplit path).2, (osPathSplit path).1, (osPathSplit path).2,
    cm.notebookJson path⟩

/-! ## Tree description of the reachable part of a store

For the store-traversal claim the directory structure reachable from a
group's root is described by a finite tree: `dir` nodes answer the
list-directory query with their children, `nb` nodes are notebook leaves,
`other` nodes are leaves of any other type. -/

inductive CMTree where
  | dir (path : String) (children : List CMTree)
  | nb (path : String)
  | other (path : String)

/-- The path at the root of a tree. -/
def CMTree.path : CMTree → String
  | CMTree.dir p _ => p
  | CMTree.nb p => p
  | CMTree.other p => p

/-- Is the root of the tree a directory node? -/
def CMTree.isDir : CMTree → Bool
  | CMTree.dir _ _ => true
  | CMTree.nb _ => false
  | CMTree.other _ => false

/-- The `CMEntry` a contents manager reports for this node. -/
def entryOfTree : CMTree → CMEntry
  | CMTree.dir p _ => ⟨p, CMType.directory⟩
  | CMTree.nb p => ⟨p, CMType.notebook⟩
  | CMTree.other p => ⟨p, CMType.file⟩

/-- All nodes of a forest, in preorder. -/
def nodesF : List CMTree → List CMTree
  | [] => []
  | CMTree.dir p cs :: ts => CMTree.dir p cs :: (nodesF cs ++ nodesF ts)
  | CMTree.nb p :: ts => CMTree.nb p :: nodesF ts
  | CMTree.other p :: ts => CMTree.other p :: nodesF ts

/-- All nodes of a single tree. -/
def treeNodes (t : CMTree) : List CMTree := nodesF [t]

/-- All node paths of a forest. -/
def forestPaths (f : List CMTree) : List String :=
  (nodesF f).map CMTree.path

/-- Paths of all directory nodes of a forest. -/
def dirPathsF (f : List CMTree) : List String :=
  (nodesF f).filterMap (fun t =>
    match t with
    | CMTree.dir p _ => some p
    | _ => none)

/-- Paths of all notebook nodes of a forest. -/
def nbPathsF (f : List CMTree) : List String :=
  (nodesF f).filterMap (fun t =>
    match t with
    | CMTree.nb p => some p
    | _ => none)

/-- Number of directory nodes of a forest. -/
def numDirsF (f : List CMTree) : Nat :=
  (dirPathsF f).length

/-- The store answers every directory node of the forest with exactly
that node's children (this is what it means for the forest to describe
the part of the store reachable from its roots). -/
def StoreAgrees (store : String → List CMEntry) (f : List CMTree) : Prop :=
  ∀ p cs, CMTree.dir p cs ∈ nodesF f → store p = cs.map entryOfTree

/-- Are all roots of the forest directory nodes? -/
def allRootsDir : List CMTree → Bool
  | [] => true
  | t :: ts => t.isDir && allRootsDir ts

/-- Paths of the top-level directory children of a node's child list. -/
def dirRootPaths (cs : List CMTree) : List String :=
  (cs.filter (fun t => t.isDir)).map CMTree.path

/-- Paths of the top-level notebook children of a node's child list. -/
def directNbPaths (cs : List CMTree) : List String :=
  cs.filterMap (fun t =>
    match t with
    | CMTree.nb p => some p
    | _ => none)

/-- Summaries of the top-level notebook children of a node's child list. -/
def directNbSummaries (cs : List CMTree) : List TemplateSummary :=
  (directNbPaths cs).map TemplateSummary.mk

/-! ## State-passing method variants (for the frame claim)

Each Python method below contains no assignment to an attribute of
`self`, so its state-passing translation returns the receiver unchanged
alongside the result; the theorems for the frame claim make that
explicit. -/

/-- `TemplatesLoader.get_templates` with the post-call receiver. -/
def TemplatesLoader.get_templatesState (l : TemplatesLoader) (fs : FS) :
    Catalog × TemplatesLoader :=
  (l.get_templates fs, l)

/-- `TemplatesLoader.get_template` with the post-call receiver. -/
def TemplatesLoader.get_templateState (l : TemplatesLoader) (fs : FS)
    (path : String) : Option TemplateRecord × TemplatesLoader :=
  (l.get_template fs path, l)

/-- `ContentsManagerTemplatesLoader.get_templates` with the post-call
receiver. -/
def ContentsManagerTemplatesLoader.get_templatesState
    (l : ContentsManagerTemplatesLoader) (cm : ContentsManager)
    (sel : List String → Nat) (fuel : Nat) :
    Catalog × ContentsManagerTemplatesLoader :=
  (l.get_templates cm sel fuel, l)

/-- `ContentsManagerTemplatesLoader.get_template` with the post-call
receiver. -/
def ContentsManagerTemplatesLoader.get_templateState
    (l : ContentsManagerTemplatesLoader) (path : String) (cm : ContentsManager) :
    TemplateRecord × ContentsManagerTemplatesLoader :=
  (l.get_template path cm, l)

/-! ## Derived predicates and per-entry normal form -/

/-- Concatenation of the images of `f` (used to state the per-directory
normal form of the walk). -/
def concatMapL {α β : Type} (f : α → List β) : List α → List β
  | [] => []
  | a :: as => f a ++ concatMapL f as

/-- The contribution of a single `os.walk` entry to the `files` list of
`TemplatesLoader._old`: nothing for the top level directory, nothing for
a directory holding the sentinel ignore file, and otherwise one triple
per matching filename in a directory free of the checkpoint marker. -/
def entryFiles (l : TemplatesLoader) (path : String) (e : WalkEntry) :
    List (String × String × String) :=
  if e.1 = path then []
  else if e.2.contains TEMPLATES_IGNORE_FILE then []
  else
    (e.2.filter (fun x => l.allowed_extensions.any (fun y => fnmatch x y))).filterMap
      (fun filename =>
        if strContainsSub e.1 ".ipynb_checkpoints" then none
        else some (pjoin e.1 filename, strReplaceEmpty e.1 path, filename))

/-- Every indexed record's `name` field equals its key. -/
def NameKeyInv (idx : PathIndex) : Prop :=
  ∀ p ∈ idx, (p.2).name = p.1

/-- Every indexed record's `content` is exactly what the filesystem holds
at the record's `path`. -/
def ContentInv (fs : FS) (idx : PathIndex) : Prop :=
  ∀ p ∈ idx, fs.read (p.2).path = some (p.2).content

/-- The names listed in the catalog are exactly the keys of the index. -/
def NamesMatch (t : Catalog) (idx : PathIndex) : Prop :=
  ∀ n, catalogHasName t n = true ↔ (alFind idx n).isSome = true

/-- Every group present in the catalog carries at least one summary. -/
def GroupsNonempty (t : Catalog) : Prop :=
  ∀ p ∈ t, p.2 ≠ []

/-- Every directory reported by the walks of the configured roots is an
absolute path (true of `os.walk` whenever the configured roots are
absolute, as the server's configuration assembles them). -/
abbrev AbsWalk (l : TemplatesLoader) (fs : FS) : Prop :=
  ∀ root ∈ l.template_dirs, ∀ e ∈ fs.walk root, strHeadIsSlash e.1 = true

/-! ## Concrete environments for witnesses and counterexamples -/

/-- A loader over the single root `/t` with default options. -/
def exLoader : TemplatesLoader := TemplatesLoader.init ["/t"] none none

/-- A filesystem with one template `/t/a/b.ipynb` holding `NBDATA`. -/
def exFS : FS :=
  ⟨fun p => if p = "/t" then [("/t/a", ["b.ipynb"])] else [],
   fun _ => "/",
   fun p => if p = "/t/a/b.ipynb" then some "NBDATA" else none⟩

/-- A filesystem whose walk visits one subdirectory holding no files. -/
def exFSEmpty : FS :=
  ⟨fun p => if p = "/t" then [("/t/empty", [])] else [],
   fun _ => "/",
   fun _ => none⟩

/-- A loader over `/t` whose allowed extension glob matches everything. -/
def exLoaderStar : TemplatesLoader := TemplatesLoader.init ["/t"] (some ["*"]) none

/-- A filesystem with a single file literally named `.ipynb_checkpoints`
inside a clean subdirectory. -/
def exFSCkpt : FS :=
  ⟨fun p => if p = "/t" then [("/t/sub", [".ipynb_checkpoints"])] else [],
   fun _ => "/",
   fun p => if p = "/t/sub/.ipynb_checkpoints" then some "X" else none⟩

/-- A small directory tree for the store-traversal witness. -/
def exTree : CMTree :=
  CMTree.dir "/r"
    [CMTree.nb "/r/a.ipynb",
     CMTree.dir "/r/s" [CMTree.nb "/r/s/b.ipynb"],
     CMTree.other "/r/c.txt"]

/-- The store described by `exTree`. -/
def exStore : String → List CMEntry := fun p =>
  if p = "/r" then
    [⟨"/r/a.ipynb", CMType.notebook⟩, ⟨"/r/s", CMType.directory⟩,
     ⟨"/r/c.txt", CMType.file⟩]
  else if p = "/r/s" then [⟨"/r/s/b.ipynb", CMType.notebook⟩]
  else []

/-! ## General lemmas -/

theorem foldl_inv {α β : Type} (P : β → Prop) (f : β → α → β) :
    ∀ (l : List α) (b : β), (∀ b' a, a ∈ l → P b' → P (f b' a)) → P b → P (l.foldl f b) := by
  intro l
  induction l with
  | nil => intro b _ hb; simpa using hb
  | cons a as ih =>
    intro b hstep hb
    simp only [List.foldl_cons]
    exact ih (f b a) (fun b' x hx hb' => hstep b' x (List.mem_cons_of_mem _ hx) hb')
      (hstep b a (List.mem_cons_self _ _) hb)

theorem concatMapL_nil {α β : Type} (f : α → List β) : concatMapL f [] = [] := rfl

theorem mem_concatMapL {α β : Type} (f : α → List β) :
    ∀ (l : List α) (b : β), b ∈ concatMapL f l ↔ ∃ a ∈ l, b ∈ f a := by
  intro l
  induction l with
  | nil => intro b; simp [concatMapL]
  | cons a as ih => intro b; simp [concatMapL, List.mem_append, ih]

theorem concatMapL_filter_of_dropped {α β : Type} (f : α → List β) (keep : α → Bool) :
    ∀ l : List α, (∀ a ∈ l, keep a = false → f a = []) →
      concatMapL f (l.filter keep) = concatMapL f l := by
  intro l
  induction l with
  | nil => intro _; rfl
  | cons a as ih =>
    intro h
    by_cases hk : keep a = true
    · simp only [List.filter_cons, hk, if_true, concatMapL]
      rw [ih (fun x hx => h x (List.mem_cons_of_mem _ hx))]
    · have hk' : keep a = false := by simpa using hk
      simp only [List.filter_cons, hk', Bool.false_eq_true, if_false, concatMapL,
        h a (List.mem_cons_self _ _) hk']
      rw [ih (fun x hx => h x (List.mem_cons_of_mem _ hx))]
      simp

/-! ## The walk's per-directory normal form -/

theorem walkFiles_foldl_general (l : TemplatesLoader) (path : String) :
    ∀ (entries : List WalkEntry) (acc : List (String × String × String)),
      entries.foldl (fun files e =>
        if e.1 = path then files
        else if e.2.contains TEMPLATES_IGNORE_FILE then files
        else
          files ++
            ((e.2.filter (fun x => l.allowed_extensions.any (fun y => fnmatch x y))).filterMap
              (fun filename =>
                if strContainsSub e.1 ".ipynb_checkpoints" then none
                else some (pjoin e.1 filename, strReplaceEmpty e.1 path, filename)))) acc
      = acc ++ concatMapL (entryFiles l path) entries := by
  intro entries
  induction entries with
  | nil => intro acc; simp [concatMapL]
  | cons e es ih =>
    intro acc
    simp only [List.foldl_cons, concatMapL, entryFiles]
    by_cases h1 : e.1 = path
    · simp only [h1, if_true, ih, List.nil_append]
    · by_cases h2 : e.2.contains TEMPLATES_IGNORE_FILE
      · simp only [h1, if_false, h2, if_true, ih, List.nil_append]
      · have h2' : e.2.contains TEMPLATES_IGNORE_FILE = false := by simpa using h2
        simp only [h1, if_false, h2', Bool.false_eq_true, ih, List.append_assoc]

theorem walkFiles_eq_concatMap (l : TemplatesLoader) (path : String)
    (entries : List WalkEntry) :
    l.walkFiles path entries = concatMapL (entryFiles l path) entries := by
  unfold TemplatesLoader.walkFiles
  rw [walkFiles_foldl_general]
  simp

theorem entryFiles_of_ckpt (l : TemplatesLoader) (path : String) (e : WalkEntry)
    (h : strContainsSub e.1 ".ipynb_checkpoints" = true) :
    entryFiles l path e = [] := by
  unfold entryFiles
  by_cases h1 : e.1 = path
  · simp [h1]
  · by_cases h2 : e.2.contains TEMPLATES_IGNORE_FILE
    · have hmem : TEMPLATES_IGNORE_FILE ∈ e.2 := by simpa using h2
      simp [h1, hmem]
    · have h2' : e.2.contains TEMPLATES_IGNORE_FILE = false := by simpa using h2
      simp only [h1, if_false, h2', Bool.false_eq_true]
      rw [List.filterMap_eq_nil_iff]
      intro a _
      simp [h]

theorem entryFiles_of_ignore (l : TemplatesLoader) (path : String) (e : WalkEntry)
    (h : e.2.contains TEMPLATES_IGNORE_FILE = true) :
    entryFiles l path e = [] := by
  unfold entryFiles
  by_cases h1 : e.1 = path
  · simp [h1]
  · have hmem : TEMPLATES_IGNORE_FILE ∈ e.2 := by simpa using h
    simp [h1, hmem]

theorem walkFiles_drop_ckpt (l : TemplatesLoader) (path : String)
    (entries : List WalkEntry) :
    l.walkFiles path
        (entries.filter (fun e => !(strContainsSub e.1 ".ipynb_checkpoints")))
      = l.walkFiles path entries := by
  rw [walkFiles_eq_concatMap, walkFiles_eq_concatMap]
  apply concatMapL_filter_of_dropped
  intro e _ he
  apply entryFiles_of_ckpt
  simpa using he

/-! ## Dictionary lemmas -/

theorem catalogHasName_addGroup (t : Catalog) (k : String) (s : TemplateSummary)
    (n : String) :
    catalogHasName (addGroup t k s) n = true ↔ (s.name = n ∨ catalogHasName t n = true) := by
  induction t with
  | nil => simp [addGroup, catalogHasName]
  | cons g rest ih =>
    obtain ⟨k', vs⟩ := g
    by_cases hk : k' = k
    · simp [addGroup, hk, catalogHasName, List.any_append, or_assoc, or_comm, or_left_comm]
    · simp only [addGroup, hk, if_false]
      simp only [catalogHasName, List.any_cons] at ih ⊢
      constructor
      · intro hor
        rcases Bool.or_eq_true_iff.mp hor with hg | hrest
        · exact Or.inr (Bool.or_eq_true_iff.mpr (Or.inl hg))
        · rcases ih.mp hrest with hs | ht
          · exact Or.inl hs
          · exact Or.inr (Bool.or_eq_true_iff.mpr (Or.inr ht))
      · intro hor
        rcases hor with hs | ht
        · exact Bool.or_eq_true_iff.mpr (Or.inr (ih.mpr (Or.inl hs)))
        · rcases Bool.or_eq_true_iff.mp ht with hg | hrest
          · exact Bool.or_eq_true_iff.mpr (Or.inl hg)
          · exact Bool.or_eq_true_iff.mpr (Or.inr (ih.mpr (Or.inr hrest)))

theorem addGroup_nonempty (t : Catalog) (k : String) (s : TemplateSummary)
    (h : GroupsNonempty t) : GroupsNonempty (addGroup t k s) := by
  induction t with
  | nil =>
    intro p hp
    simp only [addGroup, List.mem_singleton] at hp
    subst hp; simp
  | cons g rest ih =>
    obtain ⟨k', vs⟩ := g
    intro p hp
    by_cases hk : k' = k
    · simp only [addGroup, hk, if_true, List.mem_cons] at hp
      rcases hp with hp | hp
      · subst hp; simp
      · exact h p (List.mem_cons_of_mem _ hp)
    · simp only [addGroup, hk, if_false, List.mem_cons] at hp
      rcases hp with hp | hp
      · subst hp; exact h (k', vs) (List.mem_cons_self _ _)
      · exact ih (fun q hq => h q (List.mem_cons_of_mem _ hq)) p hp

theorem alFind_dictInsert (m : PathIndex) (k : String) (v : TemplateRecord)
    (n : String) :
    alFind (dictInsert m k v) n = if k = n then some v else alFind m n := by
  induction m with
  | nil => simp [dictInsert, alFind]
  | cons p rest ih =>
    obtain ⟨k', v'⟩ := p
    by_cases hk : k' = k
    · subst hk
      by_cases hn : k' = n
      · simp [dictInsert, alFind, hn]
      · simp [dictInsert, alFind, hn]
    · by_cases hn : k' = n
      · subst hn
        have : ¬ k = k' := fun h => hk h.symm
        simp [dictInsert, alFind, hk, this]
      · simp [dictInsert, alFind, hk, hn, ih]

theorem mem_dictInsert (m : PathIndex) (k : String) (v : TemplateRecord)
    (p : String × TemplateRecord) (hp : p ∈ dictInsert m k v) :
    p = (k, v) ∨ p ∈ m := by
  induction m with
  | nil => simpa [dictInsert] using hp
  | cons q rest ih =>
    obtain ⟨k', v'⟩ := q
    by_cases hk : k' = k
    · simp only [dictInsert, hk, if_true, List.mem_cons] at hp
      rcases hp with hp | hp
      · subst hk; exact Or.inl hp
      · exact Or.inr (List.mem_cons_of_mem _ hp)
    · simp only [dictInsert, hk, if_false, List.mem_cons] at hp
      rcases hp with hp | hp
      · exact Or.inr (by simp [hp])
      · rcases ih hp with hh | hh
        · exact Or.inl hh
        · exact Or.inr (List.mem_cons_of_mem _ hh)

theorem alFind_mem (m : PathIndex) (n : String) (r : TemplateRecord)
    (h : alFind m n = some r) : (n, r) ∈ m := by
  induction m with
  | nil => simp [alFind] at h
  | cons p rest ih =>
    obtain ⟨k, v⟩ := p
    by_cases hk : k = n
    · subst hk
      simp only [alFind, if_true] at h
      simp only [Option.some.injEq] at h
      subst h
      exact List.mem_cons_self _ _
    · simp only [alFind, hk, if_false] at h
      exact List.mem_cons_of_mem _ (ih h)

theorem alFind_isSome_of_mem (m : PathIndex) (p : String × TemplateRecord)
    (hp : p ∈ m) : (alFind m p.1).isSome = true := by
  induction m with
  | nil => simp at hp
  | cons q rest ih =>
    obtain ⟨k, v⟩ := q
    rcases List.mem_cons.mp hp with hq | hq
    · subst hq; simp [alFind]
    · by_cases hk : k = p.1
      · simp [alFind, hk]
      · simp only [alFind, hk, if_false]
        exact ih hq

/-! ## Path shape lemmas -/

theorem strHeadIsSlash_ne_empty (a : String) (h : strHeadIsSlash a = true) : a ≠ "" := by
  intro he
  subst he
  simp [strHeadIsSlash] at h

theorem strHeadIsSlash_append (a b : String) (h : strHeadIsSlash a = true) :
    strHeadIsSlash (a ++ b) = true := by
  unfold strHeadIsSlash at h ⊢
  rw [String.data_append]
  cases hA : a.data with
  | nil => rw [hA] at h; simp at h
  | cons c cs => rw [hA] at h; simpa using h

theorem pjoin_of_headSlash (a b : String) (h : strHeadIsSlash b = true) :
    pjoin a b = b := by
  simp [pjoin, h]

theorem strHeadIsSlash_pjoin (a b : String) (h : strHeadIsSlash a = true) :
    strHeadIsSlash (pjoin a b) = true := by
  by_cases hb : strHeadIsSlash b
  · rw [pjoin_of_headSlash a b hb]; exact hb
  · have ha : a ≠ "" := strHeadIsSlash_ne_empty a h
    by_cases hl : strLastIsSlash a
    · simp only [pjoin, hb, Bool.false_eq_true, if_false, ha, hl, if_true]
      exact strHeadIsSlash_append a b h
    · simp only [pjoin, hb, Bool.false_eq_true, if_false, ha, hl, if_true]
      rw [String.append_assoc]
      exact strHeadIsSlash_append a ("/" ++ b) h

/-! ## Shape of the collected file triples -/

theorem mem_walkFiles (l : TemplatesLoader) (path : String) (entries : List WalkEntry)
    (tr : String × String × String) (h : tr ∈ l.walkFiles path entries) :
    ∃ e ∈ entries, ∃ fn, tr.1 = pjoin e.1 fn := by
  rw [walkFiles_eq_concatMap] at h
  rcases (mem_concatMapL _ entries tr).mp h with ⟨e, he, htr⟩
  refine ⟨e, he, ?_⟩
  unfold entryFiles at htr
  by_cases h1 : e.1 = path
  · simp [h1] at htr
  · by_cases h2 : e.2.contains TEMPLATES_IGNORE_FILE
    · have hmem : TEMPLATES_IGNORE_FILE ∈ e.2 := by simpa using h2
      simp [h1, hmem] at htr
    · have h2' : e.2.contains TEMPLATES_IGNORE_FILE = false := by simpa using h2
      simp only [h1, if_false, h2', Bool.false_eq_true] at htr
      rcases List.mem_filterMap.mp htr with ⟨fn, _, hfn⟩
      by_cases hc : strContainsSub e.1 ".ipynb_checkpoints"
      · simp [hc] at hfn
      · have hc' : strContainsSub e.1 ".ipynb_checkpoints" = false := by simpa using hc
        simp only [hc', Bool.false_eq_true, if_false, Option.some.injEq] at hfn
        exact ⟨fn, by rw [← hfn]⟩

theorem walkFiles_key (l : TemplatesLoader) (path ab : String) (entries : List WalkEntry)
    (habs : ∀ e ∈ entries, strHeadIsSlash e.1 = true) :
    ∀ tr ∈ l.walkFiles path entries, pjoin ab tr.1 = tr.1 := by
  intro tr htr
  rcases mem_walkFiles l path entries tr htr with ⟨e, he, fn, hfn⟩
  rw [hfn]
  exact pjoin_of_headSlash ab _ (strHeadIsSlash_pjoin e.1 fn (habs e he))

/-! ## Preservation of the loader invariants -/

theorem recordStep_nameKey (fs : FS) (ab : String) (acc : Catalog × PathIndex)
    (tr : String × String × String) (h : NameKeyInv acc.2) :
    NameKeyInv (recordStep fs ab acc tr).2 := by
  unfold recordStep
  cases hr : fs.read (pjoin ab tr.1) with
  | none => exact h
  | some c =>
    intro p hp
    rcases mem_dictInsert _ _ _ p hp with hp' | hp'
    · subst hp'; rfl
    · exact h p hp'

theorem recordStep_content (fs : FS) (ab : String) (acc : Catalog × PathIndex)
    (tr : String × String × String) (hkey : pjoin ab tr.1 = tr.1)
    (h : ContentInv fs acc.2) : ContentInv fs (recordStep fs ab acc tr).2 := by
  unfold recordStep
  cases hr : fs.read (pjoin ab tr.1) with
  | none => exact h
  | some c =>
    intro p hp
    rcases mem_dictInsert _ _ _ p hp with hp' | hp'
    · subst hp'
      show fs.read tr.1 = some c
      rw [← hkey]
      exact hr
    · exact h p hp'

theorem recordStep_namesMatch (fs : FS) (ab : String) (acc : Catalog × PathIndex)
    (tr : String × String × String) (h : NamesMatch acc.1 acc.2) :
    NamesMatch (recordStep fs ab acc tr).1 (recordStep fs ab acc tr).2 := by
  unfold recordStep
  cases hr : fs.read (pjoin ab tr.1) with
  | none => exact h
  | some c =>
    intro n
    rw [catalogHasName_addGroup, alFind_dictInsert]
    by_cases hn : pjoin tr.2.1 tr.2.2 = n
    · simp [hn]
    · simp only [hn, if_false]
      constructor
      · intro hor
        rcases hor with hs | ht
        · exact hs.elim
        · exact (h n).mp ht
      · intro hs
        exact Or.inr ((h n).mpr hs)

theorem recordStep_groups (fs : FS) (ab : String) (acc : Catalog × PathIndex)
    (tr : String × String × String) (h : GroupsNonempty acc.1) :
    GroupsNonempty (recordStep fs ab acc tr).1 := by
  unfold recordStep
  cases hr : fs.read (pjoin ab tr.1) with
  | none => exact h
  | some c => exact addGroup_nonempty _ _ _ h

theorem old_invariants (l : TemplatesLoader) (fs : FS) :
    NameKeyInv (l._old fs).2 ∧ NamesMatch (l._old fs).1 (l._old fs).2 ∧
      GroupsNonempty (l._old fs).1 := by
  unfold TemplatesLoader._old
  apply foldl_inv
    (fun acc : Catalog × PathIndex =>
      NameKeyInv acc.2 ∧ NamesMatch acc.1 acc.2 ∧ GroupsNonempty acc.1)
  · intro b path _ hb
    apply foldl_inv
      (fun acc : Catalog × PathIndex =>
        NameKeyInv acc.2 ∧ NamesMatch acc.1 acc.2 ∧ GroupsNonempty acc.1)
    · intro b' tr' _ hb'
      exact ⟨recordStep_nameKey fs _ b' tr' hb'.1,
        recordStep_namesMatch fs _ b' tr' hb'.2.1,
        recordStep_groups fs _ b' tr' hb'.2.2⟩
    · exact hb
  · refine ⟨?_, ?_, ?_⟩
    · intro p hp; simp at hp
    · intro n; simp [catalogHasName, alFind]
    · intro p hp; simp at hp

theorem old_content (l : TemplatesLoader) (fs : FS) (habs : AbsWalk l fs) :
    ContentInv fs (l._old fs).2 := by
  unfold TemplatesLoader._old
  apply foldl_inv (fun acc : Catalog × PathIndex => ContentInv fs acc.2)
  · intro b path hpath hb
    apply foldl_inv (fun acc : Catalog × PathIndex => ContentInv fs acc.2)
    · intro b' tr' htr' hb'
      exact recordStep_content fs _ b' tr'
        (walkFiles_key l path (fs.absParent path) (fs.walk path)
          (habs path hpath) tr' htr') hb'
    · exact hb
  · intro p hp; simp at hp

/-! ## Retrieval of listed names -/

theorem gettable_of_listed (l : TemplatesLoader) (fs : FS) (p : String)
    (habs : AbsWalk l fs)
    (hin : catalogHasName (l.get_templates fs) p = true) :
    ∃ rec, l.get_template fs p = some rec ∧ rec.name = p ∧
      fs.read rec.path = some rec.content := by
  obtain ⟨hkey, hnm, _⟩ := old_invariants l fs
  have hsome : (alFind (l._old fs).2 p).isSome = true := (hnm p).mp hin
  cases hfind : alFind (l._old fs).2 p with
  | none => rw [hfind] at hsome; simp at hsome
  | some rec =>
    refine ⟨rec, ?_, ?_, ?_⟩
    · show alFind (l._old fs).2 p = some rec
      exact hfind
    · exact hkey (p, rec) (alFind_mem _ _ _ hfind)
    · exact old_content l fs habs (p, rec) (alFind_mem _ _ _ hfind)

/-! ## Claim theorems for the local enumerator and the fetch handler -/

/-- C6: every name `p` listed in the catalog produced by `list_templates`
can be fetched: with the filesystem unchanged, `get_template p` succeeds,
the returned record carries the name `p`, and its content is exactly what
the filesystem holds (UTF-8 decoded) at the record's path.  The
`AbsWalk` hypothesis states that the walks report absolute directory
names, as `os.walk` does for the absolute roots the server configures. -/
theorem claim_C6_listed_names_fetchable (l : TemplatesLoader) (fs : FS) (p : String)
    (habs : AbsWalk l fs)
    (hin : catalogHasName (l.get_templates fs) p = true) :
    ∃ rec, l.get_template fs p = some rec ∧ rec.name = p ∧
      fs.read rec.path = some rec.content :=
  gettable_of_listed l fs p habs hin

/-- Witness for C6 on a concrete filesystem. -/
theorem claim_C6_witness :
    ∃ rec, TemplatesLoader.get_template exLoader exFS "/a/b.ipynb" = some rec ∧
      rec.name = "/a/b.ipynb" ∧ exFS.read rec.path = some rec.content :=
  claim_C6_listed_names_fetchable exLoader exFS "/a/b.ipynb" (by decide) (by decide)

/-- C7: a path that the walk never produced is absent from the
`template_by_path` index, and `get_template` fails on it (Python raises
`KeyError`; the model returns `none`) instead of returning a default
record. -/
theorem claim_C7_unlisted_fetch_fails (l : TemplatesLoader) (fs : FS) (p : String)
    (h : catalogHasName (l.get_templates fs) p = false) :
    l.get_template fs p = none := by
  obtain ⟨_, hnm, _⟩ := old_invariants l fs
  cases hfind : alFind (l._old fs).2 p with
  | none => exact hfind
  | some rec =>
    exfalso
    have htrue : catalogHasName (l.get_templates fs) p = true :=
      (hnm p).mpr (by rw [hfind]; rfl)
    rw [h] at htrue
    exact Bool.false_ne_true htrue

/-- Witness for C7: the full on-disk path is not a catalog name. -/
theorem claim_C7_witness :
    TemplatesLoader.get_template exLoader exFS "/t/a/b.ipynb" = none :=
  claim_C7_unlisted_fetch_fails exLoader exFS "/t/a/b.ipynb" (by decide)

/-- C3 counterexample: the lookup index after the walk of `exFS` stores
its only record under the record's `name` (`"/a/b.ipynb"`), not under the
record's `path` field (`"/t/a/b.ipynb"`); looking the record up by its
`path` raises `KeyError` (returns `none`). -/
theorem claim_C3_counterexample :
    (TemplatesLoader._old exLoader exFS).2 =
        [("/a/b.ipynb",
          ⟨"/t/a/b.ipynb", "/a/b.ipynb", "/a", "b.ipynb", "NBDATA"⟩)] ∧
      TemplatesLoader.get_template exLoader exFS "/t/a/b.ipynb" = none ∧
      ("/a/b.ipynb" : String) ≠ "/t/a/b.ipynb" := by
  refine ⟨by decide, by decide, by decide⟩

/-- C3 amended: the key under which a walk-produced record is stored in
`template_by_path` is the record's `name` field (the display name shown
in the catalog), not its `path` field, and that key retrieves the
record through `get_template`. -/
theorem claim_C3_amended_name_is_key (l : TemplatesLoader) (fs : FS) :
    ∀ p ∈ (l._old fs).2,
      (p.2).name = p.1 ∧ (l.get_template fs p.1).isSome = true :=
  fun p hp =>
    ⟨(old_invariants l fs).1 p hp, alFind_isSome_of_mem (l._old fs).2 p hp⟩

/-- Witness for the amended C3 on a concrete filesystem. -/
theorem claim_C3_amended_witness :
    (⟨"/t/a/b.ipynb", "/a/b.ipynb", "/a", "b.ipynb", "NBDATA"⟩ :
        TemplateRecord).name = "/a/b.ipynb" ∧
      (TemplatesLoader.get_template exLoader exFS "/a/b.ipynb").isSome = true :=
  claim_C3_amended_name_is_key exLoader exFS
    ("/a/b.ipynb", ⟨"/t/a/b.ipynb", "/a/b.ipynb", "/a", "b.ipynb", "NBDATA"⟩)
    (by decide)

/-- C4 counterexample: the walk of `exFSEmpty` traverses the directory
`/t/empty`, which holds no matching file; the resulting catalog is empty,
so the traversed directory yields no group key at all (rather than a key
with an empty list). -/
theorem claim_C4_counterexample :
    TemplatesLoader.get_templates exLoader exFSEmpty = [] ∧
      exFSEmpty.walk "/t" = [("/t/empty", [])] := by
  refine ⟨by decide, by decide⟩

/-- C4 amended: a group key is created only at the moment a matching,
readable file is appended to it, so every group present in the catalog
returned by the local enumerator carries at least one summary; traversed
directories without matching templates contribute no group entry. -/
theorem claim_C4_amended_groups_nonempty (l : TemplatesLoader) (fs : FS) :
    ∀ p ∈ l.get_templates fs, p.2 ≠ [] :=
  fun p hp => (old_invariants l fs).2.2 p hp

/-- Witness for the amended C4 on a concrete filesystem. -/
theorem claim_C4_amended_witness :
    ([⟨"/a/b.ipynb"⟩] : List TemplateSummary) ≠ [] :=
  claim_C4_amended_groups_nonempty exLoader exFS ("a", [⟨"/a/b.ipynb"⟩])
    (by decide)

/-- C5 counterexample: a file literally named `.ipynb_checkpoints` (so its
path has a checkpoint-cache marker segment) sitting in a clean directory
is listed and fetchable when the extension glob matches it, because the
source checks the marker only against the directory part of the path. -/
theorem claim_C5_counterexample :
    (".ipynb_checkpoints" ∈ pathSegments "/t/sub/.ipynb_checkpoints") ∧
      catalogHasName (TemplatesLoader.get_templates exLoaderStar exFSCkpt)
        "/sub/.ipynb_checkpoints" = true ∧
      TemplatesLoader.get_template exLoaderStar exFSCkpt "/sub/.ipynb_checkpoints" =
        some ⟨"/t/sub/.ipynb_checkpoints", "/sub/.ipynb_checkpoints", "/sub",
          ".ipynb_checkpoints", "X"⟩ := by
  refine ⟨by decide, by decide, by decide⟩

/-- C5 amended: exclusion by the checkpoint-cache marker applies to the
directory part of a file's path: any walk directory whose path contains
`".ipynb_checkpoints"` as a substring (in particular, as a segment)
contributes nothing, regardless of extension match — deleting all such
directories from every walk leaves both the catalog and the index
unchanged.  The filename component is not consulted by this check. -/
theorem claim_C5_amended_ckpt_dirs_excluded (l : TemplatesLoader) (fs : FS) :
    l._old fs =
      l._old ⟨fun p => (fs.walk p).filter
          (fun e => !(strContainsSub e.1 ".ipynb_checkpoints")),
        fs.absParent, fs.read⟩ := by
  unfold TemplatesLoader._old
  have hgen : ∀ (ds : List String) (acc : Catalog × PathIndex),
      ds.foldl (fun acc path =>
        (l.walkFiles path ((fs.walk path).filter
          (fun e => !(strContainsSub e.1 ".ipynb_checkpoints")))).foldl
          (recordStep fs (fs.absParent path)) acc) acc
      = ds.foldl (fun acc path =>
        (l.walkFiles path (fs.walk path)).foldl
          (recordStep fs (fs.absParent path)) acc) acc := by
    intro ds
    induction ds with
    | nil => intro acc; rfl
    | cons d rest ih =>
      intro acc
      simp only [List.foldl_cons]
      rw [walkFiles_drop_ckpt]
      exact ih _
  exact (hgen l.template_dirs ([], [])).symm

/-- C8: the walk's `files` list decomposes directory by directory; a
directory whose filename list holds the sentinel `TEMPLATES_IGNORE_FILE`
contributes the empty list, while every other walk entry (in particular
each of its subdirectories, which `os.walk` reports as separate entries)
contributes exactly its matching files. -/
theorem claim_C8_sentinel_dir_contributes_nothing (l : TemplatesLoader)
    (path : String) (entries : List WalkEntry) :
    l.walkFiles path entries = concatMapL (entryFiles l path) entries ∧
      ∀ e : WalkEntry, e.2.contains TEMPLATES_IGNORE_FILE = true →
        entryFiles l path e = [] :=
  ⟨walkFiles_eq_concatMap l path entries,
   fun e he => entryFiles_of_ignore l path e he⟩

/-- Witness for C8: a concrete sentinel-holding directory contributes
nothing. -/
theorem claim_C8_witness :
    entryFiles exLoader "/t" ("/t/sub", [TEMPLATES_IGNORE_FILE, "x.ipynb"]) = [] :=
  (claim_C8_sentinel_dir_contributes_nothing exLoader "/t" []).2
    ("/t/sub", [TEMPLATES_IGNORE_FILE, "x.ipynb"]) (by decide)

/-- C1: a fetch request whose `template` query parameter is a non-empty
path present in the catalog is answered with HTTP 200 and a body carrying
the looked-up record, whose `content` field is byte for byte the
filesystem's content (UTF-8 decoded) at the record's on-disk path.  The
trailing `set_status(404)` of the source runs after `finish` has already
flushed the 200 response, so it does not reach the client. -/
theorem claim_C1_valid_fetch_returns_200_and_content (l : TemplatesLoader)
    (fs : FS) (query : String → Option String) (p : String)
    (habs : AbsWalk l fs) (hq : query "template" = some p) (hne : p ≠ "")
    (hin : catalogHasName (l.get_templates fs) p = true) :
    ∃ rec, TemplatesHandler.get (l.get_template fs) query =
        Except.ok ⟨200, some rec⟩ ∧
      rec.name = p ∧ fs.read rec.path = some rec.content := by
  obtain ⟨rec, hget, hname, hcontent⟩ := gettable_of_listed l fs p habs hin
  refine ⟨rec, ?_, hname, hcontent⟩
  unfold TemplatesHandler.get
  rw [hq]
  simp only [Option.getD_some]
  rw [if_pos hne, hget]
  rfl

/-- Witness for C1 on a concrete filesystem and query string. -/
theorem claim_C1_witness :
    ∃ rec, TemplatesHandler.get (TemplatesLoader.get_template exLoader exFS)
        (fun s => if s = "template" then some "/a/b.ipynb" else none) =
        Except.ok ⟨200, some rec⟩ ∧
      rec.name = "/a/b.ipynb" ∧ exFS.read rec.path = some rec.content :=
  claim_C1_valid_fetch_returns_200_and_content exLoader exFS
    (fun s => if s = "template" then some "/a/b.ipynb" else none) "/a/b.ipynb"
    (by decide) (by decide) (by decide) (by decide)

/-- C2: a fetch request whose `template` query parameter is absent or the
empty string receives HTTP 404 with an empty body, whatever the loader's
lookup function does — no enumerator call influences the outcome. -/
theorem claim_C2_missing_param_404 (lookup : String → Option TemplateRecord)
    (query : String → Option String)
    (h : query "template" = none ∨ query "template" = some "") :
    TemplatesHandler.get lookup query = Except.ok ⟨404, none⟩ := by
  unfold TemplatesHandler.get
  rcases h with h | h <;> rw [h] <;> rfl

/-- Witness for C2 with an absent parameter. -/
theorem claim_C2_witness :
    TemplatesHandler.get (fun _ => none) (fun _ => none) =
      Except.ok ⟨404, none⟩ :=
  claim_C2_missing_param_404 (fun _ => none) (fun _ => none) (Or.inl rfl)

/-- C10: the state-passing translations of all four loader methods return
the receiver unchanged — no call to `get_templates` or `get_template`
mutates `template_dirs`, `allowed_extensions` or `template_label` (the
Python bodies contain no assignment to any attribute of `self`). -/
theorem claim_C10_config_never_mutated (l : TemplatesLoader) (fs : FS)
    (p : String) (lc : ContentsManagerTemplatesLoader) (cm : ContentsManager)
    (sel : List String → Nat) (fuel : Nat) (q : String) :
    (l.get_templatesState fs).2 = l ∧
      (l.get_templateState fs p).2 = l ∧
      (lc.get_templatesState cm sel fuel).2 = lc ∧
      (lc.get_templateState q cm).2 = lc ∧
      (l.get_templatesState fs).2.template_dirs = l.template_dirs ∧
      (l.get_templatesState fs).2.allowed_extensions = l.allowed_extensions ∧
      (l.get_templatesState fs).2.template_label = l.template_label ∧
      (lc.get_templateState q cm).2.template_dirs = lc.template_dirs ∧
      (lc.get_templateState q cm).2.allowed_extensions = lc.allowed_extensions ∧
      (lc.get_templateState q cm).2.template_label = lc.template_label :=
  ⟨rfl, rfl, rfl, rfl, rfl, rfl, rfl, rfl, rfl, rfl⟩

/-! ## Forest bookkeeping for the store traversal -/

theorem nodesF_cons (t : CMTree) (ts : List CMTree) :
    nodesF (t :: ts) = treeNodes t ++ nodesF ts := by
  cases t <;> simp [nodesF, treeNodes]

theorem nodesF_append (a b : List CMTree) :
    nodesF (a ++ b) = nodesF a ++ nodesF b := by
  induction a with
  | nil => simp [nodesF]
  | cons t ts ih =>
    rw [List.cons_append, nodesF_cons, ih, nodesF_cons t ts, List.append_assoc]

theorem nodesF_perm (a b : List CMTree) (h : a.Perm b) :
    (nodesF a).Perm (nodesF b) := by
  induction h with
  | nil => exact List.Perm.refl _
  | cons x _ ih =>
    rw [nodesF_cons, nodesF_cons]
    exact ih.append_left (treeNodes x)
  | swap x y l =>
    rw [nodesF_cons, nodesF_cons, nodesF_cons, nodesF_cons, ← List.append_assoc,
      ← List.append_assoc]
    exact (List.perm_append_comm).append_right (nodesF l)
  | trans _ _ ih₁ ih₂ => exact ih₁.trans ih₂

theorem nodesF_sublist (a b : List CMTree) (h : a.Sublist b) :
    (nodesF a).Sublist (nodesF b) := by
  induction h with
  | slnil => exact List.Sublist.refl _
  | cons t _ ih =>
    rw [nodesF_cons]
    exact ih.trans (List.sublist_append_right _ _)
  | cons₂ t _ ih =>
    rw [nodesF_cons, nodesF_cons]
    exact List.Sublist.append_left ih _

theorem mem_nodesF_of_mem (F : List CMTree) (t : CMTree) (h : t ∈ F) :
    t ∈ nodesF F := by
  induction F with
  | nil => simp at h
  | cons s ts ih =>
    rw [nodesF_cons]
    rcases List.mem_cons.mp h with h | h
    · subst h
      apply List.mem_append_left
      cases t <;> simp [treeNodes, nodesF]
    · exact List.mem_append_right _ (ih h)

theorem nodesF_children_subset (F : List CMTree) (p : String) (cs : List CMTree)
    (h : CMTree.dir p cs ∈ F) : ∀ x ∈ nodesF cs, x ∈ nodesF F := by
  induction F with
  | nil => simp at h
  | cons s ts ih =>
    intro x hx
    rw [nodesF_cons]
    rcases List.mem_cons.mp h with h | h
    · subst h
      apply List.mem_append_left
      simp only [treeNodes, nodesF, List.append_nil]
      exact List.mem_cons_of_mem _ (by simpa using hx)
    · exact List.mem_append_right _ (ih h x hx)

theorem allRootsDir_mem (F : List CMTree) (hF : allRootsDir F = true) :
    ∀ t ∈ F, t.isDir = true := by
  induction F with
  | nil => simp
  | cons s ts ih =>
    intro t ht
    simp only [allRootsDir, Bool.and_eq_true] at hF
    rcases List.mem_cons.mp ht with h | h
    · subst h; exact hF.1
    · exact ih hF.2 t h

theorem allRootsDir_of_mem (F : List CMTree) (h : ∀ t ∈ F, t.isDir = true) :
    allRootsDir F = true := by
  induction F with
  | nil => rfl
  | cons s ts ih =>
    simp only [allRootsDir, Bool.and_eq_true]
    exact ⟨h s (List.mem_cons_self _ _),
      ih (fun t ht => h t (List.mem_cons_of_mem _ ht))⟩

/-! ## Path-level decompositions -/

theorem forestPaths_cons (t : CMTree) (ts : List CMTree) :
    forestPaths (t :: ts) = (treeNodes t).map CMTree.path ++ forestPaths ts := by
  unfold forestPaths
  rw [nodesF_cons, List.map_append]

theorem forestPaths_append (a b : List CMTree) :
    forestPaths (a ++ b) = forestPaths a ++ forestPaths b := by
  unfold forestPaths
  rw [nodesF_append, List.map_append]

theorem dirPathsF_cons (t : CMTree) (ts : List CMTree) :
    dirPathsF (t :: ts) =
      (treeNodes t).filterMap (fun s =>
        match s with
        | CMTree.dir p _ => some p
        | _ => none) ++ dirPathsF ts := by
  unfold dirPathsF
  rw [nodesF_cons, List.filterMap_append]

theorem dirPathsF_append (a b : List CMTree) :
    dirPathsF (a ++ b) = dirPathsF a ++ dirPathsF b := by
  unfold dirPathsF
  rw [nodesF_append, List.filterMap_append]

theorem nbPathsF_cons (t : CMTree) (ts : List CMTree) :
    nbPathsF (t :: ts) =
      (treeNodes t).filterMap (fun s =>
        match s with
        | CMTree.nb p => some p
        | _ => none) ++ nbPathsF ts := by
  unfold nbPathsF
  rw [nodesF_cons, List.filterMap_append]

theorem nbPathsF_append (a b : List CMTree) :
    nbPathsF (a ++ b) = nbPathsF a ++ nbPathsF b := by
  unfold nbPathsF
  rw [nodesF_append, List.filterMap_append]

theorem treeNodes_dir (p : String) (cs : List CMTree) :
    treeNodes (CMTree.dir p cs) = CMTree.dir p cs :: nodesF cs := by
  simp [treeNodes, nodesF]

theorem dirPathsF_dir_cons (p : String) (cs ts : List CMTree) :
    dirPathsF (CMTree.dir p cs :: ts) = p :: (dirPathsF cs ++ dirPathsF ts) := by
  rw [dirPathsF_cons, treeNodes_dir]
  simp [dirPathsF]

theorem dirPathsF_nb_cons (p : String) (ts : List CMTree) :
    dirPathsF (CMTree.nb p :: ts) = dirPathsF ts := by
  rw [dirPathsF_cons]
  simp [treeNodes, nodesF]

theorem dirPathsF_other_cons (p : String) (ts : List CMTree) :
    dirPathsF (CMTree.other p :: ts) = dirPathsF ts := by
  rw [dirPathsF_cons]
  simp [treeNodes, nodesF]

theorem nbPathsF_dir_cons (p : String) (cs ts : List CMTree) :
    nbPathsF (CMTree.dir p cs :: ts) = nbPathsF cs ++ nbPathsF ts := by
  rw [nbPathsF_cons, treeNodes_dir]
  simp [nbPathsF]

theorem nbPathsF_nb_cons (p : String) (ts : List CMTree) :
    nbPathsF (CMTree.nb p :: ts) = p :: nbPathsF ts := by
  rw [nbPathsF_cons]
  simp [treeNodes, nodesF]

theorem nbPathsF_other_cons (p : String) (ts : List CMTree) :
    nbPathsF (CMTree.other p :: ts) = nbPathsF ts := by
  rw [nbPathsF_cons]
  simp [treeNodes, nodesF]

theorem forestPaths_dir_cons (p : String) (cs ts : List CMTree) :
    forestPaths (CMTree.dir p cs :: ts) =
      p :: (forestPaths cs ++ forestPaths ts) := by
  rw [forestPaths_cons, treeNodes_dir]
  simp [forestPaths, CMTree.path]

theorem forestPaths_perm (a b : List CMTree) (h : a.Perm b) :
    (forestPaths a).Perm (forestPaths b) :=
  (nodesF_perm a b h).map CMTree.path

theorem dirPathsF_perm (a b : List CMTree) (h : a.Perm b) :
    (dirPathsF a).Perm (dirPathsF b) :=
  (nodesF_perm a b h).filterMap _

theorem nbPathsF_perm (a b : List CMTree) (h : a.Perm b) :
    (nbPathsF a).Perm (nbPathsF b) :=
  (nodesF_perm a b h).filterMap _

theorem forestPaths_sublist (a b : List CMTree) (h : a.Sublist b) :
    (forestPaths a).Sublist (forestPaths b) :=
  (nodesF_sublist a b h).map CMTree.path

theorem dirPathsF_filter_isDir (cs : List CMTree) :
    dirPathsF (cs.filter (fun t => t.isDir)) = dirPathsF cs := by
  induction cs with
  | nil => rfl
  | cons t ts ih =>
    cases t with
    | dir p cs' =>
      rw [List.filter_cons_of_pos (by simp [CMTree.isDir]), dirPathsF_dir_cons,
        dirPathsF_dir_cons, ih]
    | nb p =>
      rw [List.filter_cons_of_neg (by simp [CMTree.isDir]), dirPathsF_nb_cons, ih]
    | other p =>
      rw [List.filter_cons_of_neg (by simp [CMTree.isDir]), dirPathsF_other_cons, ih]

theorem nbPathsF_decomp (cs : List CMTree) :
    (nbPathsF cs).Perm
      (directNbPaths cs ++ nbPathsF (cs.filter (fun t => t.isDir))) := by
  induction cs with
  | nil => simp [nbPathsF, nodesF, directNbPaths]
  | cons t ts ih =>
    cases t with
    | dir p cs' =>
      rw [List.filter_cons_of_pos (by simp [CMTree.isDir]), nbPathsF_dir_cons,
        nbPathsF_dir_cons]
      have h1 : directNbPaths (CMTree.dir p cs' :: ts) = directNbPaths ts := by
        simp [directNbPaths]
      rw [h1]
      have h2 : (nbPathsF cs' ++ nbPathsF ts).Perm
          (nbPathsF cs' ++ (directNbPaths ts ++
            nbPathsF (ts.filter (fun t => t.isDir)))) :=
        ih.append_left _
      have h3 : (nbPathsF cs' ++ (directNbPaths ts ++
            nbPathsF (ts.filter (fun t => t.isDir)))).Perm
          (directNbPaths ts ++ (nbPathsF cs' ++
            nbPathsF (ts.filter (fun t => t.isDir)))) := by
        rw [← List.append_assoc, ← List.append_assoc]
        exact List.perm_append_comm.append_right _
      exact h2.trans h3
    | nb p =>
      rw [List.filter_cons_of_neg (by simp [CMTree.isDir]), nbPathsF_nb_cons]
      have h1 : directNbPaths (CMTree.nb p :: ts) = p :: directNbPaths ts := by
        simp [directNbPaths]
      rw [h1, List.cons_append]
      exact ih.cons p
    | other p =>
      rw [List.filter_cons_of_neg (by simp [CMTree.isDir]), nbPathsF_other_cons]
      have h1 : directNbPaths (CMTree.other p :: ts) = directNbPaths ts := by
        simp [directNbPaths]
      rw [h1]
      exact ih

theorem roots_sublist_forestPaths (F : List CMTree) :
    (F.map CMTree.path).Sublist (forestPaths F) := by
  induction F with
  | nil => simp [forestPaths, nodesF]
  | cons t ts ih =>
    rw [List.map_cons, forestPaths_cons]
    cases t with
    | dir p cs =>
      rw [treeNodes_dir]
      simp only [List.map_cons, CMTree.path, List.cons_append]
      exact List.Sublist.cons₂ _ (ih.trans (List.sublist_append_right _ _))
    | nb p =>
      simp only [treeNodes, nodesF, List.map_cons, List.map_nil, CMTree.path,
        List.cons_append, List.nil_append]
      exact List.Sublist.cons₂ _ ih
    | other p =>
      simp only [treeNodes, nodesF, List.map_cons, List.map_nil, CMTree.path,
        List.cons_append, List.nil_append]
      exact List.Sublist.cons₂ _ ih

theorem filter_isDir_sublist_nodesF (cs : List CMTree) :
    (cs.filter (fun t => t.isDir)).Sublist (nodesF cs) := by
  induction cs with
  | nil => simp [nodesF]
  | cons t ts ih =>
    rw [nodesF_cons]
    cases t with
    | dir p cs' =>
      rw [List.filter_cons_of_pos (by simp [CMTree.isDir]), treeNodes_dir,
        List.cons_append]
      exact List.Sublist.cons₂ _ (ih.trans (List.sublist_append_right _ _))
    | nb p =>
      rw [List.filter_cons_of_neg (by simp [CMTree.isDir])]
      simp only [treeNodes, nodesF, List.cons_append, List.nil_append]
      exact ih.cons _
    | other p =>
      rw [List.filter_cons_of_neg (by simp [CMTree.isDir])]
      simp only [treeNodes, nodesF, List.cons_append, List.nil_append]
      exact ih.cons _

theorem dirRootPaths_sublist_forestPaths (cs : List CMTree) :
    (dirRootPaths cs).Sublist (forestPaths cs) :=
  (filter_isDir_sublist_nodesF cs).map CMTree.path

theorem filterMap_dir_sublist_map_path (ns : List CMTree) :
    (ns.filterMap (fun t =>
      match t with
      | CMTree.dir p _ => some p
      | _ => none)).Sublist (ns.map CMTree.path) := by
  induction ns with
  | nil => simp
  | cons t ts ih =>
    cases t with
    | dir p cs =>
      simpa [CMTree.path] using List.Sublist.cons₂ p ih
    | nb p => simpa [CMTree.path] using ih.cons p
    | other p => simpa [CMTree.path] using ih.cons p

theorem dirPathsF_sublist_forestPaths (F : List CMTree) :
    (dirPathsF F).Sublist (forestPaths F) :=
  filterMap_dir_sublist_map_path (nodesF F)

theorem perm_getElem_eraseIdx {α : Type} (l : List α) :
    ∀ (i : Nat) (h : i < l.length), l.Perm (l.get ⟨i, h⟩ :: l.eraseIdx i) := by
  induction l with
  | nil => intro i h; simp at h
  | cons a ts ih =>
    intro i h
    cases i with
    | zero => simp [List.eraseIdx]
    | succ j =>
      have hj : j < ts.length := by simpa using h
      have step := (ih j hj).cons a
      simp only [List.eraseIdx]
      exact step.trans (List.Perm.swap _ _ _)

theorem map_eraseIdx {α β : Type} (f : α → β) (l : List α) :
    ∀ i : Nat, (l.map f).eraseIdx i = (l.eraseIdx i).map f := by
  induction l with
  | nil => intro i; simp [List.eraseIdx]
  | cons a ts ih =>
    intro i
    cases i with
    | zero => simp [List.eraseIdx]
    | succ j => simp [List.eraseIdx, ih j]

/-! ## The children loop -/

theorem scanChildren (cs : List CMTree) :
    ∀ (pend : List String) (acc : List TemplateSummary),
      (dirRootPaths cs).Nodup →
      (∀ x ∈ dirRootPaths cs, x ∉ pend) →
      (cs.map entryOfTree).foldl scanStep (pend, acc) =
        (pend ++ dirRootPaths cs, acc ++ directNbSummaries cs) := by
  induction cs with
  | nil =>
    intro pend acc _ _
    simp [dirRootPaths, directNbSummaries, directNbPaths]
  | cons t ts ih =>
    intro pend acc hnd hfresh
    cases t with
    | dir p cs' =>
      have hroots : dirRootPaths (CMTree.dir p cs' :: ts) = p :: dirRootPaths ts := by
        simp [dirRootPaths, CMTree.isDir, CMTree.path]
      rw [hroots] at hnd hfresh
      have hpnotin : p ∉ pend := hfresh p (List.mem_cons_self _ _)
      have hcontains : pend.contains p = false := by
        rw [Bool.eq_false_iff]
        intro hc
        exact hpnotin (List.elem_iff.mp hc)
      have hstep : scanStep (pend, acc) (entryOfTree (CMTree.dir p cs')) =
          (pend ++ [p], acc) := by
        simp [scanStep, entryOfTree, setAdd, hcontains, hpnotin]
      rw [List.map_cons, List.foldl_cons, hstep]
      rw [ih (pend ++ [p]) acc (List.Nodup.of_cons hnd) ?fresh]
      case fresh =>
        intro x hx
        simp only [List.mem_append, List.mem_singleton]
        rintro (hxp | hxp)
        · exact hfresh x (List.mem_cons_of_mem _ hx) hxp
        · subst hxp
          exact (List.nodup_cons.mp hnd).1 hx
      have hsum : directNbSummaries (CMTree.dir p cs' :: ts) = directNbSummaries ts := by
        simp [directNbSummaries, directNbPaths]
      rw [hroots, hsum, List.append_assoc, List.singleton_append]
    | nb p =>
      have hroots : dirRootPaths (CMTree.nb p :: ts) = dirRootPaths ts := by
        simp [dirRootPaths, CMTree.isDir]
      rw [hroots] at hnd hfresh
      have hstep : scanStep (pend, acc) (entryOfTree (CMTree.nb p)) =
          (pend, acc ++ [⟨p⟩]) := by
        simp [scanStep, entryOfTree]
      rw [List.map_cons, List.foldl_cons, hstep,
        ih pend (acc ++ [TemplateSummary.mk p]) hnd hfresh]
      have hsum : directNbSummaries (CMTree.nb p :: ts) =
          ⟨p⟩ :: directNbSummaries ts := by
        simp [directNbSummaries, directNbPaths]
      rw [hroots, hsum, List.append_assoc, List.singleton_append]
    | other p =>
      have hroots : dirRootPaths (CMTree.other p :: ts) = dirRootPaths ts := by
        simp [dirRootPaths, CMTree.isDir]
      rw [hroots] at hnd hfresh
      have hstep : scanStep (pend, acc) (entryOfTree (CMTree.other p)) =
          (pend, acc) := by
        simp [scanStep, entryOfTree]
      rw [List.map_cons, List.foldl_cons, hstep, ih pend acc hnd hfresh]
      have hsum : directNbSummaries (CMTree.other p :: ts) = directNbSummaries ts := by
        simp [directNbSummaries, directNbPaths]
      rw [hroots, hsum]

/-! ## The main loop of the store traversal -/

theorem scanLoop_succ_cons (store : String → List CMEntry) (sel : List String → Nat)
    (fuel : Nat) (x : String) (xs : List String) (pops : List String)
    (acc : List TemplateSummary) :
    scanLoop store sel (fuel + 1) (x :: xs) pops acc =
      scanLoop store sel fuel
        ((store ((x :: xs).getD (sel (x :: xs) % (x :: xs).length) "")).foldl scanStep
          ((x :: xs).eraseIdx (sel (x :: xs) % (x :: xs).length), acc)).1
        (pops ++ [(x :: xs).getD (sel (x :: xs) % (x :: xs).length) ""])
        ((store ((x :: xs).getD (sel (x :: xs) % (x :: xs).length) "")).foldl scanStep
          ((x :: xs).eraseIdx (sel (x :: xs) % (x :: xs).length), acc)).2 := rfl

theorem scanLoop_forest (store : String → List CMEntry) (sel : List String → Nat) :
    ∀ (fuel : Nat) (F : List CMTree) (pops : List String) (acc : List TemplateSummary),
      allRootsDir F = true →
      StoreAgrees store F →
      (forestPaths F).Nodup →
      numDirsF F ≤ fuel →
      ∃ π ν,
        scanLoop store sel fuel (F.map CMTree.path) pops acc = (pops ++ π, acc ++ ν) ∧
          π.Perm (dirPathsF F) ∧ (ν.map TemplateSummary.name).Perm (nbPathsF F) := by
  intro fuel
  induction fuel with
  | zero =>
    intro F pops acc hroots _ _ hfuel
    have hF : F = [] := by
      cases F with
      | nil => rfl
      | cons t ts =>
        exfalso
        have hd := allRootsDir_mem _ hroots t (List.mem_cons_self _ _)
        cases t with
        | dir p cs =>
          have hn : numDirsF (CMTree.dir p cs :: ts) =
              (p :: (dirPathsF cs ++ dirPathsF ts)).length := by
            unfold numDirsF
            rw [dirPathsF_dir_cons]
          rw [hn] at hfuel
          simp at hfuel
        | nb p => simp [CMTree.isDir] at hd
        | other p => simp [CMTree.isDir] at hd
    subst hF
    refine ⟨[], [], by simp [scanLoop], by simp [dirPathsF, nodesF],
      by simp [nbPathsF, nodesF]⟩
  | succ fuel ih =>
    intro F pops acc hroots hagree hnd hfuel
    cases F with
    | nil =>
      refine ⟨[], [], by simp [scanLoop], by simp [dirPathsF, nodesF],
        by simp [nbPathsF, nodesF]⟩
    | cons t F' =>
      have hlen : 0 < ((t :: F').map CMTree.path).length := by simp
      rw [List.map_cons, scanLoop_succ_cons, ← List.map_cons]
      generalize hjdef :
        sel ((t :: F').map CMTree.path) % ((t :: F').map CMTree.path).length = j
      have hjlt : j < ((t :: F').map CMTree.path).length := by
        rw [← hjdef]
        exact Nat.mod_lt _ hlen
      have hjltF : j < (t :: F').length := by simpa using hjlt
      obtain ⟨p, cs, hpcs⟩ :
          ∃ p cs, (t :: F').get ⟨j, hjltF⟩ = CMTree.dir p cs := by
        have hmem : (t :: F').get ⟨j, hjltF⟩ ∈ t :: F' := List.get_mem _ _ _
        have hd := allRootsDir_mem _ hroots _ hmem
        cases hg : (t :: F').get ⟨j, hjltF⟩ with
        | dir q ds => exact ⟨q, ds, rfl⟩
        | nb q => rw [hg] at hd; simp [CMTree.isDir] at hd
        | other q => rw [hg] at hd; simp [CMTree.isDir] at hd
      have hpcs' : (t :: F')[j] = CMTree.dir p cs := by
        rw [← hpcs, List.get_eq_getElem]
      have hgetD : ((t :: F').map CMTree.path).getD j "" = p := by
        rw [List.getD_eq_getElem _ _ hjlt, List.getElem_map, hpcs']
        rfl
      have hperm : (t :: F').Perm (CMTree.dir p cs :: (t :: F').eraseIdx j) := by
        have h0 := perm_getElem_eraseIdx (t :: F') j hjltF
        rwa [hpcs] at h0
      have hnodeMem : CMTree.dir p cs ∈ nodesF (t :: F') := by
        apply mem_nodesF_of_mem
        rw [← hpcs]
        exact List.get_mem _ _ _
      have hdirmem : CMTree.dir p cs ∈ t :: F' := by
        rw [← hpcs]
        exact List.get_mem _ _ _
      have hstorep : store p = cs.map entryOfTree := hagree p cs hnodeMem
      have hrest : ((t :: F').map CMTree.path).eraseIdx j =
          ((t :: F').eraseIdx j).map CMTree.path := map_eraseIdx _ _ j
      have hbig : (forestPaths
          (CMTree.dir p cs :: (t :: F').eraseIdx j)).Nodup :=
        (forestPaths_perm _ _ hperm).nodup hnd
      rw [forestPaths_dir_cons] at hbig
      have hndCE :
          (forestPaths cs ++ forestPaths ((t :: F').eraseIdx j)).Nodup :=
        hbig.of_cons
      have hdisj :
          (forestPaths cs).Disjoint (forestPaths ((t :: F').eraseIdx j)) :=
        List.disjoint_of_nodup_append hndCE
      have hdirNodup : (dirRootPaths cs).Nodup :=
        (hndCE.of_append_left).sublist (dirRootPaths_sublist_forestPaths cs)
      have hfresh : ∀ x ∈ dirRootPaths cs,
          x ∉ ((t :: F').eraseIdx j).map CMTree.path := by
        intro x hx hxE
        exact hdisj ((dirRootPaths_sublist_forestPaths cs).mem hx)
          ((roots_sublist_forestPaths _).mem hxE)
      have hm : ((t :: F').eraseIdx j ++ cs.filter (fun s => s.isDir)).map
            CMTree.path =
          ((t :: F').eraseIdx j).map CMTree.path ++ dirRootPaths cs := by
        rw [List.map_append]
        rfl
      have hIH1 : allRootsDir
          ((t :: F').eraseIdx j ++ cs.filter (fun s => s.isDir)) = true := by
        apply allRootsDir_of_mem
        intro s hs
        rcases List.mem_append.mp hs with hs | hs
        · exact allRootsDir_mem _ hroots s (List.mem_of_mem_eraseIdx hs)
        · exact (List.mem_filter.mp hs).2
      have hIH2 : StoreAgrees store
          ((t :: F').eraseIdx j ++ cs.filter (fun s => s.isDir)) := by
        intro q ds hq
        rw [nodesF_append] at hq
        rcases List.mem_append.mp hq with hq | hq
        · exact hagree q ds
            ((nodesF_sublist _ _ (List.eraseIdx_sublist _ j)).mem hq)
        · have hq' : CMTree.dir q ds ∈ nodesF cs :=
            (nodesF_sublist _ _ (List.filter_sublist cs)).mem hq
          exact hagree q ds (nodesF_children_subset (t :: F') p cs hdirmem _ hq')
      have hIH3 : (forestPaths
          ((t :: F').eraseIdx j ++ cs.filter (fun s => s.isDir))).Nodup := by
        rw [forestPaths_append]
        have hcomm :
            (forestPaths ((t :: F').eraseIdx j) ++ forestPaths cs).Nodup :=
          (List.perm_append_comm).nodup hndCE
        exact hcomm.sublist
          (List.Sublist.append_left
            (forestPaths_sublist _ _ (List.filter_sublist cs)) _)
      have he1 : (dirPathsF (t :: F')).Perm
          (p :: (dirPathsF cs ++ dirPathsF ((t :: F').eraseIdx j))) := by
        have h0 := dirPathsF_perm _ _ hperm
        rwa [dirPathsF_dir_cons] at h0
      have hIH4 : numDirsF
          ((t :: F').eraseIdx j ++ cs.filter (fun s => s.isDir)) ≤ fuel := by
        have hlenF : numDirsF (t :: F') =
            (p :: (dirPathsF cs ++ dirPathsF ((t :: F').eraseIdx j))).length :=
          he1.length_eq
        have hlenF2 : numDirsF
            ((t :: F').eraseIdx j ++ cs.filter (fun s => s.isDir)) =
            (dirPathsF ((t :: F').eraseIdx j)).length + (dirPathsF cs).length := by
          unfold numDirsF
          rw [dirPathsF_append, dirPathsF_filter_isDir, List.length_append,
            Nat.add_comm]
        rw [hlenF] at hfuel
        rw [hlenF2]
        simp only [List.length_cons, List.length_append] at hfuel
        omega
      obtain ⟨π', ν', heq', hπ', hν'⟩ :=
        ih ((t :: F').eraseIdx j ++ cs.filter (fun s => s.isDir))
          (pops ++ [p]) (acc ++ directNbSummaries cs) hIH1 hIH2 hIH3 hIH4
      refine ⟨p :: π', directNbSummaries cs ++ ν', ?_, ?_, ?_⟩
      · rw [hgetD, hrest, hstorep,
          scanChildren cs (((t :: F').eraseIdx j).map CMTree.path) acc
            hdirNodup hfresh]
        show scanLoop store sel fuel
            (((t :: F').eraseIdx j).map CMTree.path ++ dirRootPaths cs)
            (pops ++ [p]) (acc ++ directNbSummaries cs) =
          (pops ++ (p :: π'), acc ++ (directNbSummaries cs ++ ν'))
        rw [← hm, heq', List.append_assoc, List.append_assoc,
          List.singleton_append]
      · have he2 : π'.Perm
            (dirPathsF ((t :: F').eraseIdx j) ++ dirPathsF cs) := by
          have hdp : dirPathsF
              ((t :: F').eraseIdx j ++ cs.filter (fun s => s.isDir)) =
              dirPathsF ((t :: F').eraseIdx j) ++ dirPathsF cs := by
            rw [dirPathsF_append, dirPathsF_filter_isDir]
          rw [← hdp]
          exact hπ'
        refine List.Perm.trans ?_ he1.symm
        exact (he2.trans List.perm_append_comm).cons p
      · have hnames : (directNbSummaries cs).map TemplateSummary.name =
            directNbPaths cs := by
          simp only [directNbSummaries, List.map_map]
          have hcomp : TemplateSummary.name ∘ TemplateSummary.mk = id := rfl
          rw [hcomp, List.map_id]
        rw [List.map_append, hnames]
        have hf1 : (nbPathsF (t :: F')).Perm
            (nbPathsF cs ++ nbPathsF ((t :: F').eraseIdx j)) := by
          have h0 := nbPathsF_perm _ _ hperm
          rwa [nbPathsF_dir_cons] at h0
        have hf2 : (ν'.map TemplateSummary.name).Perm
            (nbPathsF ((t :: F').eraseIdx j) ++
              nbPathsF (cs.filter (fun s => s.isDir))) := by
          have hnp : nbPathsF
              ((t :: F').eraseIdx j ++ cs.filter (fun s => s.isDir)) =
              nbPathsF ((t :: F').eraseIdx j) ++
                nbPathsF (cs.filter (fun s => s.isDir)) :=
            nbPathsF_append _ _
          rw [← hnp]
          exact hν'
        refine List.Perm.trans ?_ hf1.symm
        have hstep1 : (directNbPaths cs ++ ν'.map TemplateSummary.name).Perm
            (directNbPaths cs ++ (nbPathsF (cs.filter (fun s => s.isDir)) ++
              nbPathsF ((t :: F').eraseIdx j))) :=
          List.Perm.append_left _ (hf2.trans List.perm_append_comm)
        refine hstep1.trans ?_
        rw [← List.append_assoc]
        exact List.Perm.append_right _ (nbPathsF_decomp cs).symm

/-- C9: over a store whose reachable directory structure from a group's
root is described by a finite tree with pairwise-distinct paths, the
`get_templates` traversal queries the store's list-directory primitive
exactly once for every reachable directory (whatever order the pending
set is popped in, modelled by an arbitrary selector), and the group's
resulting list contains exactly the notebook-typed children found in the
visited directories, up to order. -/
theorem claim_C9_store_traversal (t : CMTree) (store : String → List CMEntry)
    (sel : List String → Nat) (fuel : Nat)
    (hdir : t.isDir = true) (hagree : StoreAgrees store [t])
    (hnd : (forestPaths [t]).Nodup) (hfuel : numDirsF [t] ≤ fuel) :
    ∃ pops found,
      scanLoop store sel fuel [t.path] [] [] = (pops, found) ∧
        pops.Perm (dirPathsF [t]) ∧ pops.Nodup ∧
        (found.map TemplateSummary.name).Perm (nbPathsF [t]) ∧
        ∀ (g lbl : String) (exts : List String) (nbj : String → String),
          ContentsManagerTemplatesLoader.get_templates ⟨[(g, t.path)], lbl, exts⟩
            ⟨store, nbj⟩ sel fuel = [(g, found)] := by
  obtain ⟨π, ν, heq, hπ, hν⟩ := scanLoop_forest store sel fuel [t] [] []
    (by simp [allRootsDir, hdir]) hagree hnd hfuel
  have heq' : scanLoop store sel fuel [t.path] [] [] = (π, ν) := by
    simpa using heq
  refine ⟨π, ν, heq', hπ, ?_, hν, ?_⟩
  · have hdirnd : (dirPathsF [t]).Nodup :=
      hnd.sublist (dirPathsF_sublist_forestPaths [t])
    exact hπ.symm.nodup hdirnd
  · intro g lbl exts nbj
    show [(g, (scanLoop store sel fuel [t.path] [] []).2)] = [(g, ν)]
    rw [heq']

/-- Witness for C9 on a concrete three-level tree and a first-element
selector. -/
theorem claim_C9_witness :
    ∃ pops found,
      scanLoop exStore (fun _ => 0) 2 [CMTree.path exTree] [] [] = (pops, found) ∧
        pops.Perm (dirPathsF [exTree]) ∧ pops.Nodup ∧
        (found.map TemplateSummary.name).Perm (nbPathsF [exTree]) ∧
        ∀ (g lbl : String) (exts : List String) (nbj : String → String),
          ContentsManagerTemplatesLoader.get_templates
            ⟨[(g, CMTree.path exTree)], lbl, exts⟩
            ⟨exStore, nbj⟩ (fun _ => 0) 2 = [(g, found)] :=
  claim_C9_store_traversal exTree exStore (fun _ => 0) 2 rfl
    (by
      intro p cs h
      simp [exTree, nodesF] at h
      rcases h with ⟨rfl, rfl⟩ | ⟨rfl, rfl⟩ <;> rfl)
    (by
      simp only [forestPaths, exTree, nodesF, List.map_cons, List.map_nil,
        List.map_append, CMTree.path, List.cons_append, List.nil_append,
        List.append_nil]
      decide)
    (by
      simp only [numDirsF, dirPathsF, exTree, nodesF, List.cons_append,
        List.nil_append, List.append_nil, List.filterMap_cons, List.filterMap_nil]
      decide)
